import Mathlib

/-!
Shallow embedding of the transaction core of the TiKV Rust client
(`src/transaction/transaction.rs`): the mutation buffer, the read-merge
logic (`get`, `batch_get`, `get_from_mutations`), the buffer-writing
operations (`set`, `delete`, `lock_keys`), the accessors (`start_ts`,
`snapshot`), the wire-mutation list built by `prewrite`, and the control
flow of `commit`.

Keys and values are byte sequences, embedded as lists of naturals; the
`BTreeMap<Key, Mutation>` buffer is embedded as an association list kept
strictly sorted by the byte-lexicographic key order, which is exactly the
iteration and lookup behaviour of `BTreeMap` with `Key`'s derived `Ord`.
Fallible operations return `Except Error`; a Rust panic (the `expect` in
`batch_get`) is embedded as `Option.none` in the result.
-/

abbrev Key := List Nat

abbrev Value := List Nat

/-- Timestamp as in the source: a (physical, logical) pair. -/
structure Timestamp where
  physical : Nat
  logical : Nat
deriving DecidableEq

/-- Errors surfaced by the external snapshot (remote storage failure). -/
inductive Error where
  | StorageError (code : Nat)
deriving DecidableEq

/-- Mutation variants as in the source: Put(value), Del, Lock. -/
inductive Mutation where
  | Put (v : Value)
  | Del
  | Lock
deriving DecidableEq

/-- MutationValue: the projection of a buffered mutation onto what a read
would observe, as in the source. -/
inductive MutationValue where
  | Determined (v : Option Value)
  | Undetermined
deriving DecidableEq

/-- Modelled from the spec: `Mutation::get_value` lives outside the provided
source file. Per the spec it projects `Put v` to `Determined (some v)`,
`Delete` to `Determined none`, and `Lock` to `Undetermined`. -/
def Mutation.get_value : Mutation → MutationValue
  | Mutation.Put v => MutationValue.Determined (some v)
  | Mutation.Del => MutationValue.Determined none
  | Mutation.Lock => MutationValue.Undetermined

/-- Modelled from the spec: the external read-only Snapshot collaborator
(spec section 6). Its two reads are embedded as functions fixed for the
snapshot's lifetime, and it carries the fixed start timestamp. -/
structure Snapshot where
  timestamp : Timestamp
  get : Key → Except Error (Option Value)
  batch_get : List Key → Except Error (List (Key × Option Value))

/-- Byte-lexicographic strict order on keys, as the derived `Ord` of a Rust
byte vector compares: elementwise, shorter prefix first. -/
def keyLt : Key → Key → Bool
  | [], [] => false
  | [], _ :: _ => true
  | _ :: _, [] => false
  | a :: as, b :: bs => if a < b then true else if a = b then keyLt as bs else false

theorem keyLt_irrefl (a : Key) : keyLt a a = false := by
  induction a with
  | nil => rfl
  | cons x xs ih => simp [keyLt, ih]

theorem keyLt_trans {a b c : Key} (hab : keyLt a b = true) (hbc : keyLt b c = true) :
    keyLt a c = true := by
  induction a generalizing b c with
  | nil =>
    cases c with
    | nil =>
      cases b with
      | nil => exact hab
      | cons y ys => simp [keyLt] at hbc
    | cons z zs => simp [keyLt]
  | cons x xs ih =>
    cases b with
    | nil => simp [keyLt] at hab
    | cons y ys =>
      cases c with
      | nil => simp [keyLt] at hbc
      | cons z zs =>
        simp only [keyLt] at hab hbc ⊢
        by_cases hxy : x < y
        · by_cases hyz : y < z
          · simp [show x < z by omega]
          · simp only [if_neg hyz] at hbc
            by_cases heq : y = z
            · simp [show x < z by omega]
            · simp [if_neg heq] at hbc
        · simp only [if_neg hxy] at hab
          by_cases heq : x = y
          · simp only [if_pos heq] at hab
            subst heq
            by_cases hyz : x < z
            · simp [hyz]
            · simp only [if_neg hyz] at hbc ⊢
              by_cases heq2 : x = z
              · simp only [if_pos heq2] at hbc ⊢
                exact ih hab hbc
              · simp [if_neg heq2] at hbc
          · simp [if_neg heq] at hab

theorem keyLt_connex {a b : Key} (hab : keyLt a b = false) (hba : keyLt b a = false) :
    a = b := by
  induction a generalizing b with
  | nil =>
    cases b with
    | nil => rfl
    | cons y ys => simp [keyLt] at hab
  | cons x xs ih =>
    cases b with
    | nil => simp [keyLt] at hba
    | cons y ys =>
      simp only [keyLt] at hab hba
      by_cases hxy : x < y
      · simp [hxy] at hab
      · by_cases hyx : y < x
        · simp [hyx] at hba
        · have heq : x = y := by omega
          subst heq
          simp only [if_neg hxy, if_pos rfl] at hab hba
          rw [ih hab hba]

theorem keyLt_asymm {a b : Key} (h : keyLt a b = true) : keyLt b a = false := by
  cases hba : keyLt b a with
  | false => rfl
  | true =>
    have haa := keyLt_trans h hba
    rw [keyLt_irrefl] at haa
    exact absurd haa (by simp)

/-- The mutation buffer: an association list strictly sorted by `keyLt`,
embedding `BTreeMap<Key, Mutation>`. -/
abbrev Buffer := List (Key × Mutation)

/-- Lookup in the buffer, embedding `BTreeMap::get`. -/
def bufGet (key : Key) : Buffer → Option Mutation
  | [] => none
  | (k, m) :: rest => if key = k then some m else bufGet key rest

/-- Insert replacing any existing entry, embedding `BTreeMap::insert`. -/
def bufInsert (key : Key) (m : Mutation) : Buffer → Buffer
  | [] => [(key, m)]
  | (k, m2) :: rest =>
    if keyLt key k then (key, m) :: (k, m2) :: rest
    else if key = k then (key, m) :: rest
    else (k, m2) :: bufInsert key m rest

/-- Insert only when absent, embedding `BTreeMap::entry(key).or_insert(m)`. -/
def bufInsertIfAbsent (key : Key) (m : Mutation) : Buffer → Buffer
  | [] => [(key, m)]
  | (k, m2) :: rest =>
    if keyLt key k then (key, m) :: (k, m2) :: rest
    else if key = k then (k, m2) :: rest
    else (k, m2) :: bufInsertIfAbsent key m rest

/-- Strict sortedness of the buffer by key: the `BTreeMap` representation
invariant, which also forces all keys to be distinct. -/
def SortedBuf (buf : Buffer) : Prop :=
  List.Pairwise (fun a b => keyLt a.1 b.1 = true) buf

instance (buf : Buffer) : Decidable (SortedBuf buf) := by
  unfold SortedBuf; infer_instance

theorem bufGet_none_of_forall {key : Key} {buf : Buffer}
    (h : ∀ b ∈ buf, keyLt key b.1 = true) : bufGet key buf = none := by
  induction buf with
  | nil => rfl
  | cons hd tl ih =>
    obtain ⟨k, m2⟩ := hd
    have hne : key ≠ k := by
      intro he
      have hlt := h (k, m2) (by simp)
      rw [he, keyLt_irrefl] at hlt
      exact absurd hlt (by simp)
    rw [bufGet, if_neg hne]
    exact ih (fun b hb => h b (by simp [hb]))

theorem bufGet_insert_self (key : Key) (m : Mutation) (buf : Buffer) :
    bufGet key (bufInsert key m buf) = some m := by
  induction buf with
  | nil => simp [bufInsert, bufGet]
  | cons hd tl ih =>
    obtain ⟨k, m2⟩ := hd
    by_cases h1 : keyLt key k
    · simp [bufInsert, h1, bufGet]
    · by_cases h2 : key = k
      · subst h2
        simp [bufInsert, keyLt_irrefl, bufGet]
      · simp [bufInsert, h1, h2, bufGet, ih]

theorem bufGet_insert_ne {key key2 : Key} (m : Mutation) (buf : Buffer) (h : key ≠ key2) :
    bufGet key (bufInsert key2 m buf) = bufGet key buf := by
  induction buf with
  | nil => simp [bufInsert, bufGet, h]
  | cons hd tl ih =>
    obtain ⟨k, m2⟩ := hd
    by_cases h1 : keyLt key2 k
    · simp [bufInsert, h1, bufGet, h]
    · by_cases h2 : key2 = k
      · subst h2
        simp [bufInsert, h1, bufGet, h]
      · by_cases h3 : key = k
        · simp [bufInsert, h1, h2, bufGet, h3]
        · simp [bufInsert, h1, h2, bufGet, h3, ih]

theorem bufGet_insertIfAbsent_self (key : Key) (m : Mutation) {buf : Buffer}
    (hs : SortedBuf buf) :
    bufGet key (bufInsertIfAbsent key m buf) = some ((bufGet key buf).getD m) := by
  induction buf with
  | nil => simp [bufInsertIfAbsent, bufGet]
  | cons hd tl ih =>
    obtain ⟨k, m2⟩ := hd
    simp only [SortedBuf, List.pairwise_cons] at hs
    obtain ⟨hhd, htl⟩ := hs
    by_cases h1 : keyLt key k
    · have hnone : bufGet key ((k, m2) :: tl) = none := by
        apply bufGet_none_of_forall
        intro b hb
        rcases List.mem_cons.mp hb with hb | hb
        · rw [hb]; exact h1
        · exact keyLt_trans h1 (hhd b hb)
      rw [bufInsertIfAbsent, if_pos h1, hnone]
      simp [bufGet]
    · by_cases h2 : key = k
      · subst h2
        simp [bufInsertIfAbsent, keyLt_irrefl, bufGet]
      · rw [bufInsertIfAbsent, if_neg h1, if_neg h2]
        rw [bufGet, if_neg h2]
        conv =>
          rhs
          rw [bufGet, if_neg h2]
        exact ih htl

theorem bufGet_insertIfAbsent_ne {key key2 : Key} (m : Mutation) (buf : Buffer)
    (h : key ≠ key2) :
    bufGet key (bufInsertIfAbsent key2 m buf) = bufGet key buf := by
  induction buf with
  | nil => simp [bufInsertIfAbsent, bufGet, h]
  | cons hd tl ih =>
    obtain ⟨k, m2⟩ := hd
    by_cases h1 : keyLt key2 k
    · simp [bufInsertIfAbsent, h1, bufGet, h]
    · by_cases h2 : key2 = k
      · subst h2
        simp [bufInsertIfAbsent, h1, bufGet, h]
      · by_cases h3 : key = k
        · simp [bufInsertIfAbsent, h1, h2, bufGet, h3]
        · simp [bufInsertIfAbsent, h1, h2, bufGet, h3, ih]

theorem mem_bufInsert {p : Key × Mutation} {key : Key} {m : Mutation} {buf : Buffer}
    (h : p ∈ bufInsert key m buf) : p = (key, m) ∨ p ∈ buf := by
  induction buf with
  | nil => simpa [bufInsert] using h
  | cons hd tl ih =>
    obtain ⟨k, m2⟩ := hd
    by_cases h1 : keyLt key k
    · simp only [bufInsert, if_pos h1, List.mem_cons] at h
      simp only [List.mem_cons]
      tauto
    · by_cases h2 : key = k
      · simp only [bufInsert, if_neg h1, if_pos h2, List.mem_cons] at h
        simp only [List.mem_cons]
        tauto
      · simp only [bufInsert, if_neg h1, if_neg h2, List.mem_cons] at h
        simp only [List.mem_cons]
        rcases h with h | h
        · tauto
        · rcases ih h with h | h <;> tauto

theorem mem_bufInsertIfAbsent {p : Key × Mutation} {key : Key} {m : Mutation} {buf : Buffer}
    (h : p ∈ bufInsertIfAbsent key m buf) : p = (key, m) ∨ p ∈ buf := by
  induction buf with
  | nil => simpa [bufInsertIfAbsent] using h
  | cons hd tl ih =>
    obtain ⟨k, m2⟩ := hd
    by_cases h1 : keyLt key k
    · simp only [bufInsertIfAbsent, if_pos h1, List.mem_cons] at h
      simp only [List.mem_cons]
      tauto
    · by_cases h2 : key = k
      · simp only [bufInsertIfAbsent, if_neg h1, if_pos h2, List.mem_cons] at h
        simp only [List.mem_cons]
        tauto
      · simp only [bufInsertIfAbsent, if_neg h1, if_neg h2, List.mem_cons] at h
        simp only [List.mem_cons]
        rcases h with h | h
        · tauto
        · rcases ih h with h | h <;> tauto

theorem sorted_bufInsert (key : Key) (m : Mutation) {buf : Buffer} (h : SortedBuf buf) :
    SortedBuf (bufInsert key m buf) := by
  induction buf with
  | nil => simp [bufInsert, SortedBuf]
  | cons hd tl ih =>
    obtain ⟨k, m2⟩ := hd
    rw [SortedBuf, List.pairwise_cons] at h
    obtain ⟨hhd, htl⟩ := h
    by_cases h1 : keyLt key k
    · rw [bufInsert, if_pos h1]
      rw [SortedBuf, List.pairwise_cons]
      refine ⟨?_, ?_⟩
      · intro b hb
        rcases List.mem_cons.mp hb with hb | hb
        · subst hb; exact h1
        · exact keyLt_trans h1 (hhd b hb)
      · rw [List.pairwise_cons]
        exact ⟨hhd, htl⟩
    · by_cases h2 : key = k
      · rw [bufInsert, if_neg h1, if_pos h2]
        rw [SortedBuf, List.pairwise_cons]
        subst h2
        exact ⟨hhd, htl⟩
      · rw [bufInsert, if_neg h1, if_neg h2]
        rw [SortedBuf, List.pairwise_cons]
        rw [Bool.not_eq_true] at h1
        refine ⟨?_, ih htl⟩
        intro b hb
        rcases mem_bufInsert hb with hb | hb
        · rw [hb]
          cases h3 : keyLt k key with
          | true => rfl
          | false => exact absurd (keyLt_connex h3 h1).symm h2
        · exact hhd b hb

theorem sorted_bufInsertIfAbsent (key : Key) (m : Mutation) {buf : Buffer}
    (h : SortedBuf buf) : SortedBuf (bufInsertIfAbsent key m buf) := by
  induction buf with
  | nil => simp [bufInsertIfAbsent, SortedBuf]
  | cons hd tl ih =>
    obtain ⟨k, m2⟩ := hd
    rw [SortedBuf, List.pairwise_cons] at h
    obtain ⟨hhd, htl⟩ := h
    by_cases h1 : keyLt key k
    · rw [bufInsertIfAbsent, if_pos h1]
      rw [SortedBuf, List.pairwise_cons]
      refine ⟨?_, ?_⟩
      · intro b hb
        rcases List.mem_cons.mp hb with hb | hb
        · rw [hb]; exact h1
        · exact keyLt_trans h1 (hhd b hb)
      · rw [List.pairwise_cons]
        exact ⟨hhd, htl⟩
    · by_cases h2 : key = k
      · rw [bufInsertIfAbsent, if_neg h1, if_pos h2]
        rw [SortedBuf, List.pairwise_cons]
        exact ⟨hhd, htl⟩
      · rw [bufInsertIfAbsent, if_neg h1, if_neg h2]
        rw [SortedBuf, List.pairwise_cons]
        rw [Bool.not_eq_true] at h1
        refine ⟨?_, ih htl⟩
        intro b hb
        rcases mem_bufInsertIfAbsent hb with hb | hb
        · rw [hb]
          cases h3 : keyLt k key with
          | true => rfl
          | false => exact absurd (keyLt_connex h3 h1).symm h2
        · exact hhd b hb

theorem bufGet_eq_some_iff_mem {key : Key} {m : Mutation} {buf : Buffer}
    (hs : SortedBuf buf) : bufGet key buf = some m ↔ (key, m) ∈ buf := by
  induction buf with
  | nil => simp [bufGet]
  | cons hd tl ih =>
    obtain ⟨k, m2⟩ := hd
    rw [SortedBuf, List.pairwise_cons] at hs
    obtain ⟨hhd, htl⟩ := hs
    by_cases h2 : key = k
    · subst h2
      rw [bufGet, if_pos rfl]
      simp only [List.mem_cons]
      constructor
      · intro h
        left
        injection h with h
        rw [h]
      · intro h
        rcases h with h | h
        · injection h with ha hb
          rw [hb]
        · have hlt := hhd (key, m) h
          rw [keyLt_irrefl] at hlt
          exact absurd hlt (by simp)
    · rw [bufGet, if_neg h2]
      simp only [List.mem_cons]
      rw [ih htl]
      constructor
      · intro h; right; exact h
      · intro h
        rcases h with h | h
        · injection h with ha hb
          exact absurd ha h2
        · exact h

theorem bufGet_head_key_tail {k : Key} {m2 : Mutation} {tl : Buffer}
    (hs : SortedBuf ((k, m2) :: tl)) : bufGet k tl = none := by
  rw [SortedBuf, List.pairwise_cons] at hs
  exact bufGet_none_of_forall (fun b hb => hs.1 b hb)

theorem buf_ext {b1 b2 : Buffer} (h1 : SortedBuf b1) (h2 : SortedBuf b2)
    (h : ∀ k, bufGet k b1 = bufGet k b2) : b1 = b2 := by
  induction b1 generalizing b2 with
  | nil =>
    cases b2 with
    | nil => rfl
    | cons hd2 t2 =>
      obtain ⟨k2, m2⟩ := hd2
      have hk := h k2
      rw [bufGet, bufGet, if_pos rfl] at hk
      exact absurd hk (by simp)
  | cons hd1 t1 ih =>
    obtain ⟨k1, m1⟩ := hd1
    cases b2 with
    | nil =>
      have hk := h k1
      rw [bufGet, bufGet, if_pos rfl] at hk
      exact absurd hk (by simp)
    | cons hd2 t2 =>
      obtain ⟨k2, m2⟩ := hd2
      have hkeys : k1 = k2 := by
        by_cases hlt : keyLt k1 k2 = true
        · exfalso
          have hk := h k1
          rw [bufGet, if_pos rfl] at hk
          have hne : k1 ≠ k2 := by
            intro he; rw [he, keyLt_irrefl] at hlt; exact absurd hlt (by simp)
          rw [bufGet, if_neg hne] at hk
          have hnone : bufGet k1 t2 = none := by
            apply bufGet_none_of_forall
            intro b hb
            rw [SortedBuf, List.pairwise_cons] at h2
            exact keyLt_trans hlt (h2.1 b hb)
          rw [hnone] at hk
          exact absurd hk (by simp)
        · by_cases hgt : keyLt k2 k1 = true
          · exfalso
            have hk := h k2
            have hne : k2 ≠ k1 := by
              intro he; rw [he, keyLt_irrefl] at hgt; exact absurd hgt (by simp)
            rw [bufGet, if_neg hne, bufGet, if_pos rfl] at hk
            have hnone : bufGet k2 t1 = none := by
              apply bufGet_none_of_forall
              intro b hb
              rw [SortedBuf, List.pairwise_cons] at h1
              exact keyLt_trans hgt (h1.1 b hb)
            rw [hnone] at hk
            exact absurd hk (by simp)
          · rw [Bool.not_eq_true] at hlt hgt
            exact keyLt_connex hlt hgt
      subst hkeys
      have hm : m1 = m2 := by
        have hk := h k1
        rw [bufGet, if_pos rfl, bufGet, if_pos rfl] at hk
        injection hk
      subst hm
      have htails : ∀ k, bufGet k t1 = bufGet k t2 := by
        intro k
        by_cases hk1 : k = k1
        · subst hk1
          rw [bufGet_head_key_tail h1, bufGet_head_key_tail h2]
        · have hk := h k
          rw [bufGet, if_neg hk1, bufGet, if_neg hk1] at hk
          exact hk
      rw [SortedBuf, List.pairwise_cons] at h1 h2
      rw [ih h1.2 h2.2 htails]

/-- Transaction as in the source: an owned Snapshot plus the mutation
buffer. `Transaction::new` (from derive_new) starts with an empty buffer. -/
structure Transaction where
  snapshot : Snapshot
  mutations : Buffer

/-- Constructor as generated by derive_new: the buffer defaults to empty. -/
def Transaction.new (snapshot : Snapshot) : Transaction :=
  { snapshot := snapshot, mutations := [] }

/-- Embeds `Transaction::get_from_mutations`. -/
def Transaction.get_from_mutations (txn : Transaction) (key : Key) : MutationValue :=
  ((bufGet key txn.mutations).map Mutation.get_value).getD MutationValue.Undetermined

/-- Embeds `Transaction::get`: answer from the buffer when determined,
otherwise delegate to the snapshot's single-key read. -/
def Transaction.get (txn : Transaction) (key : Key) : Except Error (Option Value) :=
  match txn.get_from_mutations key with
  | MutationValue.Determined value => Except.ok value
  | MutationValue.Undetermined => txn.snapshot.get key

/-- Whether a projection is Undetermined, as tested by the
`if let MutationValue::Undetermined` in `batch_get`. -/
def MutationValue.isUndetermined : MutationValue → Bool
  | MutationValue.Undetermined => true
  | MutationValue.Determined _ => false

/-- The `results_in_buffer` vector built by the loop in `batch_get`: each
input key, in order, paired with its buffer projection. -/
def Transaction.results_in_buffer (txn : Transaction) (keys : List Key) :
    List (Key × MutationValue) :=
  keys.map (fun k => (k, txn.get_from_mutations k))

/-- The `undetermined_keys` vector built by the loop in `batch_get`: the
input keys whose projection is Undetermined, in input order, duplicates
kept. -/
def Transaction.undetermined_keys (txn : Transaction) (keys : List Key) : List Key :=
  keys.filter (fun k => (txn.get_from_mutations k).isUndetermined)

/-- The reassembly closure of `batch_get`: walk `results_in_buffer`, emit
determined pairs as-is and fill each Undetermined slot with the next
unconsumed snapshot result. The `expect` panic on exhaustion of the
snapshot iterator is embedded as `none`; leftover snapshot results are
never pulled, as with the Rust iterator. -/
def zipResults : List (Key × MutationValue) → List (Key × Option Value) →
    Option (List (Key × Option Value))
  | [], _ => some []
  | (key, MutationValue.Determined value) :: rest, snap =>
    (zipResults rest snap).map (fun l => (key, value) :: l)
  | (_, MutationValue.Undetermined) :: _, [] => none
  | (_, MutationValue.Undetermined) :: rest, s :: snap =>
    (zipResults rest snap).map (fun l => s :: l)

/-- Embeds `Transaction::batch_get`. The outer `Except` is the `?` on the
snapshot's batched read; the inner `Option` is `none` exactly when the
collected iterator hits the `expect` panic. -/
def Transaction.batch_get (txn : Transaction) (keys : List Key) :
    Except Error (Option (List (Key × Option Value))) :=
  match txn.snapshot.batch_get (txn.undetermined_keys keys) with
  | Except.error e => Except.error e
  | Except.ok results_from_snapshot =>
    Except.ok (zipResults (txn.results_in_buffer keys) results_from_snapshot)

/-- Embeds `Transaction::set`: unconditional `BTreeMap::insert` of Put. -/
def Transaction.set (txn : Transaction) (key : Key) (value : Value) : Transaction :=
  { txn with mutations := bufInsert key (Mutation.Put value) txn.mutations }

/-- Embeds `Transaction::delete`: unconditional `BTreeMap::insert` of Del. -/
def Transaction.delete (txn : Transaction) (key : Key) : Transaction :=
  { txn with mutations := bufInsert key Mutation.Del txn.mutations }

/-- Embeds `Transaction::lock_keys`: for each key in order,
`entry(key).or_insert(Mutation::Lock)`. -/
def Transaction.lock_keys (txn : Transaction) (keys : List Key) : Transaction :=
  keys.foldl
    (fun t k => { t with mutations := bufInsertIfAbsent k Mutation.Lock t.mutations }) txn

/-- Embeds `Transaction::start_ts`: the owned snapshot's timestamp. -/
def Transaction.start_ts (txn : Transaction) : Timestamp :=
  txn.snapshot.timestamp

/-- Modelled from the spec: `Mutation::into_proto_with_key` lives outside the
provided source file; per the spec's wire encoding it pairs the mutation
with its key. -/
def Mutation.into_proto_with_key (m : Mutation) (key : Key) : Mutation × Key :=
  (m, key)

/-- The `_rpc_mutations` vector built by `Transaction::prewrite`: one wire
record per buffer entry, in the buffer's iteration (key) order. -/
def Transaction.rpc_mutations (txn : Transaction) : List (Mutation × Key) :=
  txn.mutations.map (fun kv => Mutation.into_proto_with_key kv.2 kv.1)

/-- Modelled from the spec: primary-key selection is absent from the source
(the commit bodies are unimplemented stubs); section 4.4 fixes the
canonical choice as the first key of the buffer's key-order iteration. -/
def Transaction.primary_key (txn : Transaction) : Option Key :=
  txn.rpc_mutations.head?.map Prod.snd

/-- The three commit phases, in the order `commit` runs them. -/
inductive Phase where
  | prewrite
  | commitPrimary
  | commitSecondary
deriving DecidableEq

/-- Modelled from the spec: the bodies of `prewrite`, `commit_primary` and
`commit_secondary` are unimplemented stubs in the source, so their
outcomes are abstract parameters of the commit control flow. -/
structure PhaseOutcomes where
  prewrite : Except Error Unit
  commit_primary : Except Error Unit
  commit_secondary : Except Error Unit

/-- Embeds the control flow of `Transaction::commit`: `prewrite` then `?`,
`commit_primary` then `?`, then `commit_secondary` with its result bound
to `_` and discarded, then `Ok(())`. Returns the caller-visible result
together with the trace of phases that were actually attempted. -/
def Transaction.commit (_txn : Transaction) (o : PhaseOutcomes) :
    Except Error Unit × List Phase :=
  match o.prewrite with
  | Except.error e => (Except.error e, [Phase.prewrite])
  | Except.ok _ =>
    match o.commit_primary with
    | Except.error e => (Except.error e, [Phase.prewrite, Phase.commitPrimary])
    | Except.ok _ =>
      match o.commit_secondary with
      | _ => (Except.ok (), [Phase.prewrite, Phase.commitPrimary, Phase.commitSecondary])

/-- The buffer-writing operations a caller can issue before commit. -/
inductive Op where
  | set (key : Key) (value : Value)
  | delete (key : Key)
  | lock_keys (keys : List Key)

/-- Dispatch one operation on the transaction. -/
def applyOp (txn : Transaction) : Op → Transaction
  | Op.set key value => txn.set key value
  | Op.delete key => txn.delete key
  | Op.lock_keys keys => txn.lock_keys keys

/-- Run a sequence of buffer-writing operations. -/
def applyOps (txn : Transaction) (ops : List Op) : Transaction :=
  ops.foldl applyOp txn

/-- What a single operation does to the mutation visible at one key,
written from the spec's buffer contract: set and delete overwrite, lock
fills only an absent entry. -/
def opEffect (key : Key) (cur : Option Mutation) : Op → Option Mutation
  | Op.set key2 value => if key = key2 then some (Mutation.Put value) else cur
  | Op.delete key2 => if key = key2 then some Mutation.Del else cur
  | Op.lock_keys keys => if key ∈ keys then some (cur.getD Mutation.Lock) else cur

theorem lock_keys_snapshot (txn : Transaction) (ks : List Key) :
    (txn.lock_keys ks).snapshot = txn.snapshot := by
  induction ks generalizing txn with
  | nil => rfl
  | cons k rest ih => exact ih _

theorem applyOp_snapshot (txn : Transaction) (op : Op) :
    (applyOp txn op).snapshot = txn.snapshot := by
  cases op with
  | set key value => rfl
  | delete key => rfl
  | lock_keys ks => exact lock_keys_snapshot txn ks

theorem applyOps_snapshot (txn : Transaction) (ops : List Op) :
    (applyOps txn ops).snapshot = txn.snapshot := by
  induction ops generalizing txn with
  | nil => rfl
  | cons op rest ih => exact (ih (applyOp txn op)).trans (applyOp_snapshot txn op)

theorem sorted_lock_keys {txn : Transaction} (ks : List Key)
    (hs : SortedBuf txn.mutations) : SortedBuf (txn.lock_keys ks).mutations := by
  induction ks generalizing txn with
  | nil => exact hs
  | cons k rest ih => exact ih (sorted_bufInsertIfAbsent k Mutation.Lock hs)

theorem sorted_applyOp {txn : Transaction} (op : Op) (hs : SortedBuf txn.mutations) :
    SortedBuf (applyOp txn op).mutations := by
  cases op with
  | set key value => exact sorted_bufInsert key (Mutation.Put value) hs
  | delete key => exact sorted_bufInsert key Mutation.Del hs
  | lock_keys ks => exact sorted_lock_keys ks hs

theorem sorted_applyOps {txn : Transaction} (ops : List Op) (hs : SortedBuf txn.mutations) :
    SortedBuf (applyOps txn ops).mutations := by
  induction ops generalizing txn with
  | nil => exact hs
  | cons op rest ih => exact ih (sorted_applyOp op hs)

theorem bufGet_lock_keys (txn : Transaction) (ks : List Key) (key : Key)
    (hs : SortedBuf txn.mutations) :
    bufGet key (txn.lock_keys ks).mutations =
      if key ∈ ks then some ((bufGet key txn.mutations).getD Mutation.Lock)
      else bufGet key txn.mutations := by
  induction ks generalizing txn with
  | nil => simp [Transaction.lock_keys]
  | cons k2 rest ih =>
    have hstep :
        txn.lock_keys (k2 :: rest) =
          Transaction.lock_keys
            { txn with mutations := bufInsertIfAbsent k2 Mutation.Lock txn.mutations }
            rest := rfl
    rw [hstep]
    rw [ih _ (sorted_bufInsertIfAbsent k2 Mutation.Lock hs)]
    by_cases hk : key = k2
    · subst hk
      have hself := bufGet_insertIfAbsent_self key Mutation.Lock hs
      by_cases hmem : key ∈ rest
      · simp [hself, hmem]
      · simp [hself, hmem]
    · have hne := @bufGet_insertIfAbsent_ne key k2 Mutation.Lock txn.mutations hk
      simp only [hne]
      by_cases hmem : key ∈ rest
      · simp [hmem, hk]
      · simp [hmem, hk]

theorem bufGet_applyOp (txn : Transaction) (op : Op) (key : Key)
    (hs : SortedBuf txn.mutations) :
    bufGet key (applyOp txn op).mutations = opEffect key (bufGet key txn.mutations) op := by
  cases op with
  | set key2 value =>
    by_cases hk : key = key2
    · subst hk
      simp [applyOp, Transaction.set, opEffect, bufGet_insert_self]
    · simp [applyOp, Transaction.set, opEffect, hk, bufGet_insert_ne _ _ hk]
  | delete key2 =>
    by_cases hk : key = key2
    · subst hk
      simp [applyOp, Transaction.delete, opEffect, bufGet_insert_self]
    · simp [applyOp, Transaction.delete, opEffect, hk, bufGet_insert_ne _ _ hk]
  | lock_keys ks =>
    rw [applyOp, bufGet_lock_keys txn ks key hs, opEffect]

theorem bufGet_applyOps (txn : Transaction) (ops : List Op) (key : Key)
    (hs : SortedBuf txn.mutations) :
    bufGet key (applyOps txn ops).mutations =
      ops.foldl (opEffect key) (bufGet key txn.mutations) := by
  induction ops generalizing txn with
  | nil => rfl
  | cons op rest ih =>
    have hstep : applyOps txn (op :: rest) = applyOps (applyOp txn op) rest := rfl
    rw [hstep, ih _ (sorted_applyOp op hs), bufGet_applyOp txn op key hs]
    rfl

theorem undetermined_keys_cons_det {txn : Transaction} {k : Key}
    (h : (txn.get_from_mutations k).isUndetermined = false) (keys : List Key) :
    txn.undetermined_keys (k :: keys) = txn.undetermined_keys keys := by
  simp [Transaction.undetermined_keys, List.filter_cons, h]

theorem undetermined_keys_cons_undet {txn : Transaction} {k : Key}
    (h : (txn.get_from_mutations k).isUndetermined = true) (keys : List Key) :
    txn.undetermined_keys (k :: keys) = k :: txn.undetermined_keys keys := by
  simp [Transaction.undetermined_keys, List.filter_cons, h]

theorem results_in_buffer_cons (txn : Transaction) (k : Key) (keys : List Key) :
    txn.results_in_buffer (k :: keys) =
      (k, txn.get_from_mutations k) :: txn.results_in_buffer keys := rfl

theorem zipResults_spec (txn : Transaction) (keys : List Key)
    (snap : List (Key × Option Value))
    (hlen : (txn.undetermined_keys keys).length ≤ snap.length) :
    ∃ out, zipResults (txn.results_in_buffer keys) snap = some out ∧
      out.length = keys.length ∧
      ∀ i : Nat, out[i]? = keys[i]?.bind (fun k =>
        match txn.get_from_mutations k with
        | MutationValue.Determined v => some (k, v)
        | MutationValue.Undetermined =>
          snap[(txn.undetermined_keys (keys.take i)).length]?) := by
  induction keys generalizing snap with
  | nil =>
    refine ⟨[], rfl, rfl, ?_⟩
    intro i
    simp
  | cons k rest ih =>
    cases hmv : txn.get_from_mutations k with
    | Determined v =>
      have hdet : (txn.get_from_mutations k).isUndetermined = false := by
        rw [hmv]; rfl
      rw [undetermined_keys_cons_det hdet] at hlen
      obtain ⟨out2, hz, hl, hidx⟩ := ih snap hlen
      refine ⟨(k, v) :: out2, ?_, by simp [hl], ?_⟩
      · rw [results_in_buffer_cons, hmv, zipResults, hz]
        rfl
      · intro i
        cases i with
        | zero => simp [hmv]
        | succ j =>
          have hj := hidx j
          simp only [List.getElem?_cons_succ, hj, List.take_succ_cons,
            undetermined_keys_cons_det hdet]
    | Undetermined =>
      have hundet : (txn.get_from_mutations k).isUndetermined = true := by
        rw [hmv]; rfl
      rw [undetermined_keys_cons_undet hundet] at hlen
      cases snap with
      | nil => simp at hlen
      | cons s snap2 =>
        simp only [List.length_cons, Nat.succ_le_succ_iff] at hlen
        obtain ⟨out2, hz, hl, hidx⟩ := ih snap2 hlen
        refine ⟨s :: out2, ?_, by simp [hl], ?_⟩
        · rw [results_in_buffer_cons, hmv, zipResults, hz]
          rfl
        · intro i
          cases i with
          | zero => simp [hmv, Transaction.undetermined_keys]
          | succ j =>
            have hj := hidx j
            simp only [List.getElem?_cons_succ, hj, List.take_succ_cons,
              undetermined_keys_cons_undet hundet, List.length_cons]

theorem zipResults_none_of_short (txn : Transaction) (keys : List Key)
    (snap : List (Key × Option Value))
    (hlen : snap.length < (txn.undetermined_keys keys).length) :
    zipResults (txn.results_in_buffer keys) snap = none := by
  induction keys generalizing snap with
  | nil => simp [Transaction.undetermined_keys] at hlen
  | cons k rest ih =>
    cases hmv : txn.get_from_mutations k with
    | Determined v =>
      have hdet : (txn.get_from_mutations k).isUndetermined = false := by
        rw [hmv]; rfl
      rw [undetermined_keys_cons_det hdet] at hlen
      rw [results_in_buffer_cons, hmv, zipResults, ih snap hlen]
      rfl
    | Undetermined =>
      have hundet : (txn.get_from_mutations k).isUndetermined = true := by
        rw [hmv]; rfl
      rw [undetermined_keys_cons_undet hundet] at hlen
      cases snap with
      | nil =>
        rw [results_in_buffer_cons, hmv]
        rfl
      | cons s snap2 =>
        simp only [List.length_cons, Nat.succ_lt_succ_iff] at hlen
        rw [results_in_buffer_cons, hmv, zipResults, ih snap2 hlen]
        rfl

theorem sorted_keys_nodup {buf : Buffer} (h : SortedBuf buf) :
    (buf.map Prod.fst).Nodup := by
  refine List.Pairwise.map Prod.fst ?_ h
  intro a b hab he
  rw [he, keyLt_irrefl] at hab
  exact absurd hab (by simp)

/-- A snapshot that always fails remotely, to exercise error propagation. -/
def failSnap : Snapshot where
  timestamp := { physical := 0, logical := 0 }
  get := fun _ => Except.error (Error.StorageError 7)
  batch_get := fun _ => Except.error (Error.StorageError 7)

/-- A snapshot answering every key with the value byte 7. -/
def okSnap : Snapshot where
  timestamp := { physical := 1, logical := 2 }
  get := fun _ => Except.ok (some [7])
  batch_get := fun ks => Except.ok (ks.map (fun k => (k, some [7])))

/-- A snapshot whose batched read returns one result regardless of how many
keys were submitted: an over-returning collaborator. -/
def excessSnap : Snapshot where
  timestamp := { physical := 0, logical := 0 }
  get := fun _ => Except.ok none
  batch_get := fun _ => Except.ok [([0], none)]

/-- A snapshot whose batched read always returns no results: an
under-returning collaborator. -/
def shortSnap : Snapshot where
  timestamp := { physical := 0, logical := 0 }
  get := fun _ => Except.ok none
  batch_get := fun _ => Except.ok []

/-- A transaction over `okSnap` with one buffered Put on key 1. -/
def txnB : Transaction := (Transaction.new okSnap).set [1] [5]

/-- A transaction with a Lock on key 1 and a Put on key 2. -/
def txnC : Transaction := ((Transaction.new failSnap).set [2] [4]).lock_keys [[1]]

/-- Claim C1: for every key, get returns the buffered answer when the buffer
determines one (Some v after set, None after delete) without consulting the
snapshot, and otherwise (no buffered mutation, or only a Lock) returns
exactly the snapshot's single-key read at the start timestamp, propagating
its storage error. -/
theorem C1_get_buffer_over_snapshot (txn : Transaction) (k : Key) (v : Value) :
    ((txn.set k v).get k = Except.ok (some v))
    ∧ ((txn.delete k).get k = Except.ok none)
    ∧ (bufGet k txn.mutations = none → txn.get k = txn.snapshot.get k)
    ∧ (bufGet k txn.mutations = some Mutation.Lock → txn.get k = txn.snapshot.get k)
    ∧ (txn.get_from_mutations k = MutationValue.Undetermined →
        txn.get k = txn.snapshot.get k) := by
  refine ⟨?_, ?_, ?_, ?_, ?_⟩
  · simp [Transaction.get, Transaction.get_from_mutations, Transaction.set,
      bufGet_insert_self, Mutation.get_value]
  · simp [Transaction.get, Transaction.get_from_mutations, Transaction.delete,
      bufGet_insert_self, Mutation.get_value]
  · intro h
    simp [Transaction.get, Transaction.get_from_mutations, h]
  · intro h
    simp [Transaction.get, Transaction.get_from_mutations, h, Mutation.get_value]
  · intro h
    simp [Transaction.get, h]

theorem C1_witness :
    (bufGet [3] (Transaction.new failSnap).mutations = none)
    ∧ ((Transaction.new failSnap).get [3] = (Transaction.new failSnap).snapshot.get [3]) :=
  ⟨rfl, (C1_get_buffer_over_snapshot (Transaction.new failSnap) [3] []).2.2.1 rfl⟩

/-- Claim C2: batch_get produces one pair per input key in the original
input order; determined keys carry the buffered value, and every
Undetermined slot is filled with the next unconsumed result of the single
batched snapshot read, consumed in the order the snapshot returns them. -/
theorem C2_batch_get_order (txn : Transaction) (keys : List Key)
    (snap : List (Key × Option Value))
    (hs : txn.snapshot.batch_get (txn.undetermined_keys keys) = Except.ok snap)
    (hlen : snap.length = (txn.undetermined_keys keys).length) :
    ∃ out, txn.batch_get keys = Except.ok (some out)
      ∧ out.length = keys.length
      ∧ ∀ i : Nat, out[i]? = keys[i]?.bind (fun k =>
          match txn.get_from_mutations k with
          | MutationValue.Determined v => some (k, v)
          | MutationValue.Undetermined =>
            snap[(txn.undetermined_keys (keys.take i)).length]?) := by
  obtain ⟨out, hz, hl, hidx⟩ := zipResults_spec txn keys snap (le_of_eq hlen.symm)
  refine ⟨out, ?_, hl, hidx⟩
  simp [Transaction.batch_get, hs, hz]

theorem C2_witness :
    (txnB.snapshot.batch_get (txnB.undetermined_keys [[2], [1]]) =
      Except.ok [([2], some [7])])
    ∧ ∃ out, txnB.batch_get [[2], [1]] = Except.ok (some out) ∧ out.length = 2 := by
  refine ⟨rfl, ?_⟩
  obtain ⟨out, h1, h2, h3⟩ := C2_batch_get_order txnB [[2], [1]] [([2], some [7])] rfl rfl
  exact ⟨out, h1, h2⟩

/-- Claim C3: commit returns success exactly when prewrite and
primary-commit both succeed; a prewrite or primary-commit error is returned
to the caller, and the secondary-commit result never influences the
caller-visible result. -/
theorem C3_commit_result (txn : Transaction) (o : PhaseOutcomes) :
    ((txn.commit o).1 = Except.ok () ↔
      o.prewrite = Except.ok () ∧ o.commit_primary = Except.ok ())
    ∧ (∀ e, o.prewrite = Except.error e → (txn.commit o).1 = Except.error e)
    ∧ (∀ e, o.prewrite = Except.ok () → o.commit_primary = Except.error e →
        (txn.commit o).1 = Except.error e)
    ∧ (∀ cs, (txn.commit { o with commit_secondary := cs }).1 = (txn.commit o).1) := by
  obtain ⟨pw, cp, cs⟩ := o
  cases pw with
  | error e => simp [Transaction.commit]
  | ok u =>
    cases u
    cases cp with
    | error e2 => simp [Transaction.commit]
    | ok u2 =>
      cases u2
      simp [Transaction.commit]

theorem C3_witness :
    ((Transaction.new failSnap).commit
        { prewrite := Except.error (Error.StorageError 1)
          commit_primary := Except.ok ()
          commit_secondary := Except.ok () }).1 = Except.error (Error.StorageError 1) :=
  (C3_commit_result (Transaction.new failSnap)
    { prewrite := Except.error (Error.StorageError 1)
      commit_primary := Except.ok ()
      commit_secondary := Except.ok () }).2.1 (Error.StorageError 1) rfl

/-- Claim C4: the commit phases are strictly ordered: commit-primary is
attempted only after prewrite succeeded and commit-secondary only after
commit-primary succeeded; a prewrite failure stops both commit steps and a
primary-commit failure stops the secondary commit. -/
theorem C4_commit_phase_order (txn : Transaction) (o : PhaseOutcomes) :
    (Phase.commitPrimary ∈ (txn.commit o).2 → o.prewrite = Except.ok ())
    ∧ (Phase.commitSecondary ∈ (txn.commit o).2 →
        o.prewrite = Except.ok () ∧ o.commit_primary = Except.ok ())
    ∧ (∀ e, o.prewrite = Except.error e → (txn.commit o).2 = [Phase.prewrite])
    ∧ (∀ e, o.prewrite = Except.ok () → o.commit_primary = Except.error e →
        (txn.commit o).2 = [Phase.prewrite, Phase.commitPrimary])
    ∧ ((txn.commit o).2 = [Phase.prewrite]
        ∨ (txn.commit o).2 = [Phase.prewrite, Phase.commitPrimary]
        ∨ (txn.commit o).2 =
            [Phase.prewrite, Phase.commitPrimary, Phase.commitSecondary]) := by
  obtain ⟨pw, cp, cs⟩ := o
  cases pw with
  | error e => simp [Transaction.commit]
  | ok u =>
    cases u
    cases cp with
    | error e2 => simp [Transaction.commit]
    | ok u2 =>
      cases u2
      simp [Transaction.commit]

theorem C4_witness :
    ((Transaction.new failSnap).commit
        { prewrite := Except.error (Error.StorageError 2)
          commit_primary := Except.ok ()
          commit_secondary := Except.ok () }).2 = [Phase.prewrite] :=
  (C4_commit_phase_order (Transaction.new failSnap)
    { prewrite := Except.error (Error.StorageError 2)
      commit_primary := Except.ok ()
      commit_secondary := Except.ok () }).2.2.1 (Error.StorageError 2) rfl

/-- Claim C5: lock_keys is non-destructive: it never overwrites an existing
buffered mutation (a prior Put survives), inserts Lock only for keys with
no buffered mutation, and because Lock never determines a value, a get
after lock_keys on a previously unmutated key still queries the
snapshot. -/
theorem C5_lock_keys_nondestructive (txn : Transaction) (k : Key) (v : Value)
    (m : Mutation) (ks : List Key) (hsort : SortedBuf txn.mutations) :
    (bufGet k txn.mutations = some m →
      bufGet k (txn.lock_keys ks).mutations = some m)
    ∧ (bufGet k ((txn.set k v).lock_keys ks).mutations = some (Mutation.Put v))
    ∧ (bufGet k txn.mutations = none → k ∈ ks →
        bufGet k (txn.lock_keys ks).mutations = some Mutation.Lock)
    ∧ (bufGet k txn.mutations = none →
        (txn.lock_keys [k]).get k = txn.snapshot.get k) := by
  refine ⟨?_, ?_, ?_, ?_⟩
  · intro h
    rw [bufGet_lock_keys txn ks k hsort]
    by_cases hmem : k ∈ ks <;> simp [hmem, h]
  · rw [bufGet_lock_keys (txn.set k v) ks k (sorted_bufInsert k (Mutation.Put v) hsort)]
    have hset : bufGet k (txn.set k v).mutations = some (Mutation.Put v) :=
      bufGet_insert_self k (Mutation.Put v) txn.mutations
    by_cases hmem : k ∈ ks <;> simp [hmem, hset]
  · intro h hmem
    rw [bufGet_lock_keys txn ks k hsort]
    simp [hmem, h]
  · intro h
    have hlock : bufGet k (txn.lock_keys [k]).mutations = some Mutation.Lock := by
      rw [bufGet_lock_keys txn [k] k hsort]
      simp [h]
    rw [Transaction.get, Transaction.get_from_mutations, hlock]
    simp [Mutation.get_value, lock_keys_snapshot]

theorem C5_witness :
    SortedBuf (Transaction.new failSnap).mutations
    ∧ ((Transaction.new failSnap).lock_keys [[1]]).get [1] =
        (Transaction.new failSnap).snapshot.get [1] :=
  ⟨by decide,
    (C5_lock_keys_nondestructive (Transaction.new failSnap) [1] [] Mutation.Lock [[1]]
      (by decide)).2.2.2 rfl⟩

/-- Claim C6: set and delete unconditionally replace any buffered mutation
for their key; starting from a fresh transaction, any operation sequence
leaves at most one live mutation per key, and the mutation visible at a key
is exactly the fold of the per-operation last-writer-wins effect. -/
theorem C6_last_writer_wins (txn : Transaction) (ops : List Op) (k : Key) (v : Value)
    (s : Snapshot) (hsort : SortedBuf txn.mutations) :
    (bufGet k (txn.set k v).mutations = some (Mutation.Put v))
    ∧ (bufGet k (txn.delete k).mutations = some Mutation.Del)
    ∧ (bufGet k (applyOps txn ops).mutations =
        ops.foldl (opEffect k) (bufGet k txn.mutations))
    ∧ SortedBuf (applyOps (Transaction.new s) ops).mutations
    ∧ ((applyOps (Transaction.new s) ops).mutations.map Prod.fst).Nodup := by
  have hnew : SortedBuf (Transaction.new s).mutations := List.Pairwise.nil
  refine ⟨bufGet_insert_self k (Mutation.Put v) txn.mutations,
    bufGet_insert_self k Mutation.Del txn.mutations,
    bufGet_applyOps txn ops k hsort,
    sorted_applyOps ops hnew,
    sorted_keys_nodup (sorted_applyOps ops hnew)⟩

theorem C6_witness :
    SortedBuf (Transaction.new failSnap).mutations
    ∧ bufGet [1] ((Transaction.new failSnap).set [1] [2]).mutations =
        some (Mutation.Put [2]) :=
  ⟨by decide,
    (C6_last_writer_wins (Transaction.new failSnap) [] [1] [2] failSnap (by decide)).1⟩

/-- Claim C7: the wire mutation set built by prewrite has exactly one record
(mutation paired with key) for every key with a live buffered mutation,
Put, Delete and Lock alike, in the buffer's byte-lexicographic key order;
the primary key is the first key of that iteration, hence minimal among
live keys and determined solely by the buffer contents. -/
theorem C7_prewrite_wire_set (txn : Transaction) (hsort : SortedBuf txn.mutations) :
    (∀ k m2, ((m2, k) ∈ txn.rpc_mutations ↔ bufGet k txn.mutations = some m2))
    ∧ txn.rpc_mutations.length = txn.mutations.length
    ∧ List.Pairwise (fun a b => keyLt a.2 b.2 = true) txn.rpc_mutations
    ∧ (∀ pk, txn.primary_key = some pk →
        bufGet pk txn.mutations ≠ none
        ∧ ∀ k2, bufGet k2 txn.mutations ≠ none → keyLt k2 pk = false)
    ∧ (∀ t2 : Transaction, SortedBuf t2.mutations →
        (∀ k, bufGet k t2.mutations = bufGet k txn.mutations) →
        t2.rpc_mutations = txn.rpc_mutations ∧ t2.primary_key = txn.primary_key) := by
  refine ⟨?_, ?_, ?_, ?_, ?_⟩
  · intro k m2
    rw [Transaction.rpc_mutations]
    simp only [List.mem_map, Mutation.into_proto_with_key, Prod.mk.injEq]
    constructor
    · rintro ⟨kv, hkv, h1, h2⟩
      rw [bufGet_eq_some_iff_mem hsort]
      obtain ⟨kk, mm⟩ := kv
      simp only at h1 h2
      rw [← h1, ← h2]
      exact hkv
    · intro h
      exact ⟨(k, m2), (bufGet_eq_some_iff_mem hsort).mp h, rfl, rfl⟩
  · rw [Transaction.rpc_mutations, List.length_map]
  · rw [Transaction.rpc_mutations]
    refine List.Pairwise.map _ ?_ hsort
    intro a b hab
    exact hab
  · intro pk hpk
    cases hbuf : txn.mutations with
    | nil =>
      rw [Transaction.primary_key, Transaction.rpc_mutations, hbuf] at hpk
      simp at hpk
    | cons hd t =>
      obtain ⟨k1, m1⟩ := hd
      rw [Transaction.primary_key, Transaction.rpc_mutations, hbuf] at hpk
      have hpk2 : k1 = pk := by
        simpa [Mutation.into_proto_with_key] using hpk
      rw [hbuf] at hsort
      rw [SortedBuf, List.pairwise_cons] at hsort
      obtain ⟨hhd, htl⟩ := hsort
      constructor
      · rw [← hpk2, bufGet, if_pos rfl]
        simp
      · intro k2 hk2
        by_cases heq : k2 = k1
        · rw [heq, ← hpk2, keyLt_irrefl]
        · rw [bufGet, if_neg heq] at hk2
          cases hm2 : bufGet k2 t with
          | none => exact absurd hm2 hk2
          | some m2 =>
            have hmem : (k2, m2) ∈ t := (bufGet_eq_some_iff_mem htl).mp hm2
            have hlt := hhd (k2, m2) hmem
            rw [← hpk2]
            exact keyLt_asymm hlt
  · intro t2 hs2 heq
    have hbufeq : t2.mutations = txn.mutations := buf_ext hs2 hsort heq
    constructor
    · rw [Transaction.rpc_mutations, Transaction.rpc_mutations, hbufeq]
    · rw [Transaction.primary_key, Transaction.primary_key,
        Transaction.rpc_mutations, Transaction.rpc_mutations, hbufeq]

theorem C7_witness :
    SortedBuf txnC.mutations ∧ bufGet [1] txnC.mutations ≠ none :=
  ⟨by decide, ((C7_prewrite_wire_set txnC (by decide)).2.2.2.1 [1] rfl).1⟩

/-- Claim C8 as stated is refuted by this concrete run: zero undetermined
keys are submitted, the snapshot's batched read over-returns one result,
and batch_get silently succeeds with output instead of failing fast. -/
theorem C8_counterexample :
    ((Transaction.new excessSnap).snapshot.batch_get
        ((Transaction.new excessSnap).undetermined_keys []) = Except.ok [([0], none)])
    ∧ (Transaction.new excessSnap).undetermined_keys [] = []
    ∧ (Transaction.new excessSnap).batch_get [] = Except.ok (some []) :=
  ⟨rfl, rfl, rfl⟩

/-- Claim C8 amended: only an under-returning batched snapshot read is a
fatal fail-fast fault (the embedded `expect` abort, distinct from a
recoverable error); an over-returning read is silently ignored and output
is still produced. -/
theorem C8_amended_short_results_abort (txn : Transaction) (keys : List Key)
    (snap : List (Key × Option Value))
    (hs : txn.snapshot.batch_get (txn.undetermined_keys keys) = Except.ok snap) :
    (txn.batch_get keys = Except.ok none ↔
      snap.length < (txn.undetermined_keys keys).length)
    ∧ ((txn.undetermined_keys keys).length ≤ snap.length →
        ∃ out, txn.batch_get keys = Except.ok (some out)) := by
  constructor
  · constructor
    · intro h
      by_contra hlt
      push_neg at hlt
      obtain ⟨out, hz, h1, h2⟩ := zipResults_spec txn keys snap hlt
      simp [Transaction.batch_get, hs, hz] at h
    · intro h
      simp [Transaction.batch_get, hs, zipResults_none_of_short txn keys snap h]
  · intro h
    obtain ⟨out, hz, h1, h2⟩ := zipResults_spec txn keys snap h
    refine ⟨out, ?_⟩
    simp [Transaction.batch_get, hs, hz]

theorem C8_witness :
    ((Transaction.new shortSnap).snapshot.batch_get
        ((Transaction.new shortSnap).undetermined_keys [[1]]) = Except.ok [])
    ∧ (Transaction.new shortSnap).batch_get [[1]] = Except.ok none :=
  ⟨rfl,
    (C8_amended_short_results_abort (Transaction.new shortSnap) [[1]] [] rfl).1.mpr
      (by decide)⟩

/-- Claim C9: start_ts always equals the owned snapshot's timestamp, the
snapshot and hence the start timestamp are unchanged by any sequence of
buffer operations, and both accessors are pure. -/
theorem C9_start_ts_immutable (txn : Transaction) (ops : List Op) :
    txn.start_ts = txn.snapshot.timestamp
    ∧ (applyOps txn ops).snapshot = txn.snapshot
    ∧ (applyOps txn ops).start_ts = txn.start_ts := by
  refine ⟨rfl, applyOps_snapshot txn ops, ?_⟩
  rw [Transaction.start_ts, Transaction.start_ts, applyOps_snapshot]

/-- Claim C10: batch_get always performs the single batched snapshot read,
with the empty key list when the buffer determines every input key (in
particular on empty input), so a snapshot batch-read failure propagates
even when no key needed the snapshot. -/
theorem C10_snapshot_always_called (txn : Transaction) (keys : List Key) (e : Error) :
    (txn.snapshot.batch_get (txn.undetermined_keys keys) = Except.error e →
      txn.batch_get keys = Except.error e)
    ∧ txn.undetermined_keys [] = []
    ∧ ((∀ k ∈ keys, txn.get_from_mutations k ≠ MutationValue.Undetermined) →
        txn.undetermined_keys keys = []) := by
  refine ⟨?_, rfl, ?_⟩
  · intro h
    rw [Transaction.batch_get, h]
  · intro h
    rw [Transaction.undetermined_keys]
    induction keys with
    | nil => rfl
    | cons k2 rest ih =>
      have h2 := h k2 (by simp)
      have hdet : (txn.get_from_mutations k2).isUndetermined = false := by
        cases hmv : txn.get_from_mutations k2 with
        | Determined v => rfl
        | Undetermined => exact absurd hmv h2
      simp only [List.filter_cons, hdet]
      exact ih (fun k hk => h k (by simp [hk]))

theorem C10_witness :
    (((Transaction.new failSnap).set [1] [2]).snapshot.batch_get
        (((Transaction.new failSnap).set [1] [2]).undetermined_keys [[1]]) =
      Except.error (Error.StorageError 7))
    ∧ ((Transaction.new failSnap).set [1] [2]).batch_get [[1]] =
        Except.error (Error.StorageError 7) :=
  ⟨rfl,
    (C10_snapshot_always_called ((Transaction.new failSnap).set [1] [2]) [[1]]
      (Error.StorageError 7)).1 rfl⟩
